import Mathlib

/-!
# Word-timing alignment engine of Reddit_Post_Video_Creator

A shallow embedding of the word-timing core of
`reddit_post_video_creator_github.py`: the duration estimator
(`estimate_word_duration`), the hybrid aligner (`create_hybrid_timings`),
the pure estimation fallback (`estimate_word_timings`), the ASR quality
gate (`get_whisper_word_timings`) and the orchestrating entry point
(`analyze_speech_timing`).  Python floats are modelled as rationals;
the external audio-duration oracle and the ASR transcription result are
passed in as explicit parameters.
-/

namespace RedditVideo

/-- The timing record built by the Python code: a dict with keys
`word`, `start`, `end`, `duration`, `confidence`. -/
structure WordTiming where
  word : String
  start : ℚ
  «end» : ℚ
  duration : ℚ
  confidence : ℚ
deriving DecidableEq, Repr, Inhabited

/-- The characters stripped by `.strip('.,!?\'"')` in the fuzzy matcher. -/
def stripChars : List Char := ['.', ',', '!', '?', '\'', '"']

/-- Python `str.strip(chars)`: drop the given characters from both ends. -/
def pyStrip (cs : List Char) : List Char :=
  ((cs.dropWhile stripChars.contains).reverse.dropWhile stripChars.contains).reverse

/-- `word.lower().strip('.,!?\'"')` as performed on both sides of the
fuzzy match in `create_hybrid_timings`. -/
def cleanWord (s : String) : List Char :=
  pyStrip (s.data.map Char.toLower)

/-- Boolean test that the first list is an initial segment of the second. -/
def leadsWith : List Char → List Char → Bool
  | [], _ => true
  | _ :: _, [] => false
  | a :: as, b :: bs => a == b && leadsWith as bs

/-- Python's `a in b` on strings: `a` occurs contiguously inside `b`. -/
def occursIn (s : List Char) : List Char → Bool
  | [] => leadsWith s []
  | c :: cs => leadsWith s (c :: cs) || occursIn s cs

/-- The match condition of `create_hybrid_timings` (source lines 267-269):
exact equality of the cleaned words, or one cleaned word occurs inside the
other and the contained one is longer than 2 characters. -/
def wordsMatch (whisperWord originalClean : List Char) : Bool :=
  whisperWord == originalClean ||
    (decide (2 < originalClean.length) && occursIn originalClean whisperWord) ||
    (decide (2 < whisperWord.length) && occursIn whisperWord originalClean)

/-- Python `word.endswith(tuple_of_single_chars)`: the last character is
one of the given characters. -/
def endsWithAny (cs : List Char) (w : String) : Bool :=
  match w.data.getLast? with
  | some c => cs.contains c
  | none => false

/-- The terminal punctuation tuple `('.', '!', '?')`. -/
def terminalPunct : List Char := ['.', '!', '?']

/-- The clause punctuation tuple `(',', ';')` of `estimate_word_timings`. -/
def clausePunct : List Char := [',', ';']

/-- The vowel string `'aeiouAEIOU'` of `estimate_word_duration`. -/
def vowelChars : List Char := ['a', 'e', 'i', 'o', 'u', 'A', 'E', 'I', 'O', 'U']

/-- Number of vowel characters of a word (`syllables` in the source). -/
def vowelCount (w : String) : ℕ := (w.data.filter vowelChars.contains).length

/-- `estimate_word_duration` (source lines 308-322):
`0.3 + len(word)*0.02 + (syllables-2)*0.05 if syllables > 2 else 0`. -/
def estimate_word_duration (word : String) : ℚ :=
  let base_duration : ℚ := 0.3
  let length_factor : ℚ := (word.length : ℚ) * 0.02
  let syllables := vowelCount word
  let complexity : ℚ := if 2 < syllables then ((syllables - 2 : ℕ) : ℚ) * 0.05 else 0
  base_duration + length_factor + complexity

/-- The inner sliding-window search of `create_hybrid_timings`
(source line 262): scan indices `j, j+1, ...` of the ASR list while fuel
(initially 5) lasts, returning the first index whose cleaned ASR word
fuzzy-matches the cleaned authoritative word, together with its entry. -/
def searchWindow (wt : List WordTiming) (originalClean : List Char) :
    ℕ → ℕ → Option (ℕ × WordTiming)
  | _, 0 => none
  | j, fuel + 1 =>
    match wt[j]? with
    | none => none
    | some t =>
      if wordsMatch (cleanWord t.word) originalClean then some (j, t)
      else searchWindow wt originalClean (j + 1) fuel

/-- One iteration of the loop body of `create_hybrid_timings` (source
lines 257-299), instrumented with the matched ASR index: either copy the
matched ASR entry (replacing its text), or synthesize an entry placed
after the previously emitted end (`lastEnd`; `none` while nothing has
been emitted, in which case the synthesized start is 0.1).  Returns the
emitted (entry, matched index) pair and the new value of `whisper_idx`. -/
def hybridStep (wt : List WordTiming) (w : String) (whisperIdx : ℕ)
    (lastEnd : Option ℚ) : (WordTiming × Option ℕ) × ℕ :=
  match searchWindow wt (cleanWord w) whisperIdx 5 with
  | some (j, t) => (({ t with word := w }, some j), j + 1)
  | none =>
    let word_duration := estimate_word_duration w
    let start_time : ℚ :=
      match lastEnd with
      | some lastE => lastE + (if endsWithAny terminalPunct w then 0.15 else 0.05)
      | none => 0.1
    ((⟨w, start_time, start_time + word_duration, word_duration, 0.4⟩, none), whisperIdx)

/-- The main loop of `create_hybrid_timings`: iterate `hybridStep` over
the authoritative words, threading the ASR cursor and the previously
emitted end. -/
def hybridAux (wt : List WordTiming) :
    List String → ℕ → Option ℚ → List (WordTiming × Option ℕ)
  | [], _, _ => []
  | w :: ws, whisperIdx, lastEnd =>
    (hybridStep wt w whisperIdx lastEnd).1 ::
      hybridAux wt ws (hybridStep wt w whisperIdx lastEnd).2
        (some (hybridStep wt w whisperIdx lastEnd).1.1.«end»)

/-- The final clamp pattern shared by both aligners: if the last entry's
`end` exceeds `limit`, replace that `end` (and only it) by `cap`. -/
def capLast (ts : List WordTiming) (limit cap : ℚ) : List WordTiming :=
  match ts.getLast? with
  | none => ts
  | some t => if limit < t.«end» then ts.dropLast ++ [{ t with «end» := cap }] else ts

/-- `create_hybrid_timings` with the matched-ASR-index trace kept
(before the final clamp). -/
def hybridTrace (wt : List WordTiming) (originalWords : List String) :
    List (WordTiming × Option ℕ) :=
  hybridAux wt originalWords 0 none

/-- `create_hybrid_timings` (source lines 242-306).  `totalDuration` is
the audio duration read from the audio file.  The final clamp (lines
301-303) caps the last `end` at `totalDuration` when it exceeds
`totalDuration + 0.1`. -/
def create_hybrid_timings (wt : List WordTiming) (originalWords : List String)
    (totalDuration : ℚ) : List WordTiming :=
  capLast ((hybridTrace wt originalWords).map Prod.fst) (totalDuration + 0.1) totalDuration

/-- Python whitespace for `str.split()`. -/
def isSpaceChar (c : Char) : Bool := c == ' ' || c == '\n' || c == '\t' || c == '\r'

/-- Worker for `pySplit`: scan the characters, accumulating the current
word in reverse; whitespace closes the current word (if any), and no empty
words are produced. -/
def wordsAux : List Char → List Char → List String
  | [], acc => if acc.isEmpty then [] else [String.mk acc.reverse]
  | c :: cs, acc =>
    if isSpaceChar c then
      (if acc.isEmpty then [] else [String.mk acc.reverse]) ++ wordsAux cs []
    else
      wordsAux cs (c :: acc)

/-- Python `text.split()`: split on whitespace runs, discarding empties. -/
def pySplit (text : String) : List String := wordsAux text.data []

/-- The loop of `estimate_word_timings` (source lines 357-385): `n` is the
total word count, `i` the current index, `currentTime` the running clock. -/
def estimateLoop (n : ℕ) (totalEst audioDuration : ℚ) :
    List String → ℕ → ℚ → List WordTiming
  | [], _, _ => []
  | w :: ws, i, currentTime =>
    let word_duration := estimate_word_duration w
    let scaled : ℚ :=
      if 0 < totalEst then word_duration / totalEst * audioDuration * 0.9 else 0.3
    let pause : ℚ :=
      if i == n - 1 then 0.1
      else if endsWithAny clausePunct w then 0.2
      else if endsWithAny terminalPunct w then 0.4
      else 0.05
    ⟨w, currentTime, currentTime + scaled, scaled, 0.3⟩ ::
      estimateLoop n totalEst audioDuration ws (i + 1) (currentTime + scaled + pause)

/-- `estimate_word_timings` (source lines 346-392): the pure estimation
fallback, followed by the clamp of lines 388-389 (cap the last `end` at
`audioDuration` when it exceeds it). -/
def estimate_word_timings (text : String) (audioDuration : ℚ) : List WordTiming :=
  let words := pySplit text
  let totalEst : ℚ := (words.map estimate_word_duration).sum
  capLast (estimateLoop words.length totalEst audioDuration words 0 0.1)
    audioDuration audioDuration

/-- `get_whisper_word_timings` (source lines 196-240).  The ASR oracle's
adapted output is passed as `asr` (`none` models both a missing model and
a raised transcription error).  The quality gate of lines 229-236 routes
to the hybrid aligner when the ASR word count is below 70% of the
authoritative word count, and otherwise returns the ASR list unchanged. -/
def get_whisper_word_timings (asr : Option (List WordTiming))
    (originalText : String) (totalDuration : ℚ) : Option (List WordTiming) :=
  match asr with
  | none => none
  | some wordTimings =>
    let originalWords := pySplit originalText
    if (wordTimings.length : ℚ) < (originalWords.length : ℚ) * 0.7 then
      some (create_hybrid_timings wordTimings originalWords totalDuration)
    else
      some wordTimings

/-- `analyze_speech_timing` (source lines 324-344): the entry point.
Whisper is tried first when available; a `None`/falsy (empty) result
falls through to pure estimation.  `audioDuration` models the audio
duration oracle used by both fallbacks. -/
def analyze_speech_timing (whisperAvailable : Bool) (asr : Option (List WordTiming))
    (text : String) (audioDuration : ℚ) : List WordTiming :=
  match (if whisperAvailable then get_whisper_word_timings asr text audioDuration else none) with
  | some result => if result.isEmpty then estimate_word_timings text audioDuration else result
  | none => estimate_word_timings text audioDuration

/-- The pause `estimate_word_timings` inserts after a non-final word
(source lines 366-371): 0.2 after `,`/`;`, 0.4 after `.`/`!`/`?`,
otherwise 0.05. -/
def pauseAfterWord (w : String) : ℚ :=
  if endsWithAny clausePunct w then 0.2
  else if endsWithAny terminalPunct w then 0.4
  else 0.05

/-- The timing `create_hybrid_timings` synthesizes for its very first
emitted word (source lines 288-299): start at 0.1, estimated duration. -/
def firstSynth (w : String) : WordTiming :=
  ⟨w, 0.1, 0.1 + estimate_word_duration w, estimate_word_duration w, 0.4⟩

/-- The timing `create_hybrid_timings` synthesizes once something has been
emitted (source lines 281-299): placed after the previously emitted end,
with the pause determined by the punctuation of the word being
synthesized. -/
def synthAfter (w : String) (prevEnd : ℚ) : WordTiming :=
  let s := prevEnd + (if endsWithAny terminalPunct w then 0.15 else 0.05)
  ⟨w, s, s + estimate_word_duration w, estimate_word_duration w, 0.4⟩

/-- Contiguous-substring occurrence, stated the way the spec words it. -/
def OccursIn (s t : List Char) : Prop := ∃ u v, u ++ s ++ v = t

/-- Modelled from the spec's wording of the fuzzy-match rule (§4.3):
case-insensitive equality after stripping the punctuation `.,!?'"`, or one
cleaned word occurs inside the other with the contained word longer than
2 characters.  Compared below with the source's `wordsMatch`. -/
def specMatch (asrWord authWord : String) : Prop :=
  cleanWord asrWord = cleanWord authWord ∨
    (OccursIn (cleanWord asrWord) (cleanWord authWord) ∧ 2 < (cleanWord asrWord).length) ∨
    (OccursIn (cleanWord authWord) (cleanWord asrWord) ∧ 2 < (cleanWord authWord).length)

/-! ## Supporting lemmas -/

theorem estimate_word_duration_nonneg (w : String) : 0 ≤ estimate_word_duration w := by
  simp only [estimate_word_duration]
  have h1 : (0 : ℚ) ≤ (w.length : ℚ) * 0.02 := by positivity
  split
  · have h2 : (0 : ℚ) ≤ ((vowelCount w - 2 : ℕ) : ℚ) * 0.05 := by positivity
    linarith [show (0:ℚ) ≤ 0.3 by norm_num]
  · linarith [show (0:ℚ) ≤ 0.3 by norm_num]

theorem pauseAfterWord_pos (w : String) : 0 < pauseAfterWord w := by
  simp only [pauseAfterWord]
  split
  · norm_num
  · split <;> norm_num

theorem capLast_length (ts : List WordTiming) (limit cap : ℚ) :
    (capLast ts limit cap).length = ts.length := by
  unfold capLast
  split
  · rfl
  next t h =>
    split
    · have hne : ts ≠ [] := fun he => by simp [he] at h
      have hpos := List.length_pos.mpr hne
      simp only [List.length_append, List.length_dropLast, List.length_cons,
        List.length_nil]
      omega
    · rfl

theorem capLast_dropLast (ts : List WordTiming) (limit cap : ℚ) :
    (capLast ts limit cap).dropLast = ts.dropLast := by
  unfold capLast
  split
  · rfl
  next t h =>
    split
    · exact List.dropLast_concat
    · rfl

theorem capLast_map_start (ts : List WordTiming) (limit cap : ℚ) :
    (capLast ts limit cap).map WordTiming.start = ts.map WordTiming.start := by
  unfold capLast
  split
  · rfl
  next t h =>
    split
    · have hts := List.dropLast_append_getLast? t (by rw [h]; rfl)
      conv_rhs => rw [← hts]
      simp
    · rfl

theorem capLast_last_le (ts : List WordTiming) (limit cap : ℚ) (hcap : cap ≤ limit) :
    ∀ t ∈ (capLast ts limit cap).getLast?, t.«end» ≤ limit := by
  unfold capLast
  split
  next h =>
    intro u hu
    rw [h] at hu
    simp at hu
  next t h =>
    split
    next hlt =>
      intro u hu
      rw [List.getLast?_concat] at hu
      simp only [Option.mem_def, Option.some.injEq] at hu
      subst hu
      exact hcap
    next hnot =>
      intro u hu
      rw [h] at hu
      simp only [Option.mem_def, Option.some.injEq] at hu
      subst hu
      exact le_of_not_lt hnot

theorem chain'_capLast {R : WordTiming → WordTiming → Prop}
    (hR : ∀ t u q, R t u → R t { u with «end» := q })
    (ts : List WordTiming) (limit cap : ℚ) (h : List.Chain' R ts) :
    List.Chain' R (capLast ts limit cap) := by
  unfold capLast
  split
  · exact h
  next t hl =>
    split
    · have hts := List.dropLast_append_getLast? t (by rw [hl]; rfl)
      rw [← hts] at h
      rw [List.chain'_append] at h ⊢
      obtain ⟨h1, _, h3⟩ := h
      refine ⟨h1, List.chain'_singleton _, ?_⟩
      intro x hx y hy
      simp only [List.head?_cons, Option.mem_def, Option.some.injEq] at hy
      subst hy
      exact hR x t cap (h3 x hx t (by simp))
    · exact h

theorem hybridAux_length (wt : List WordTiming) (ws : List String) :
    ∀ (idx : ℕ) (le : Option ℚ), (hybridAux wt ws idx le).length = ws.length := by
  induction ws with
  | nil => intro idx le; rfl
  | cons w ws ih =>
    intro idx le
    rw [hybridAux]
    simpa using ih _ _

theorem estimateLoop_length (n : ℕ) (totalEst audio : ℚ) (ws : List String) :
    ∀ (i : ℕ) (ct : ℚ), (estimateLoop n totalEst audio ws i ct).length = ws.length := by
  induction ws with
  | nil => intro i ct; rfl
  | cons w ws ih =>
    intro i ct
    rw [estimateLoop]
    simpa using ih (i + 1) _

theorem searchWindow_ge (wt : List WordTiming) (oc : List Char) :
    ∀ (fuel j : ℕ) (p : ℕ × WordTiming), searchWindow wt oc j fuel = some p → j ≤ p.1 := by
  intro fuel
  induction fuel with
  | zero => intro j p h; simp [searchWindow] at h
  | succ fuel ih =>
    intro j p h
    rw [searchWindow] at h
    cases hj : wt[j]? with
    | none => rw [hj] at h; cases h
    | some t =>
      rw [hj] at h
      simp only [] at h
      split at h
      next => cases h; exact le_refl j
      next => exact le_trans (Nat.le_succ j) (ih (j + 1) p h)

theorem searchWindow_getElem (wt : List WordTiming) (oc : List Char) :
    ∀ (fuel j : ℕ) (p : ℕ × WordTiming),
      searchWindow wt oc j fuel = some p → wt[p.1]? = some p.2 := by
  intro fuel
  induction fuel with
  | zero => intro j p h; simp [searchWindow] at h
  | succ fuel ih =>
    intro j p h
    rw [searchWindow] at h
    cases hj : wt[j]? with
    | none => rw [hj] at h; cases h
    | some t =>
      rw [hj] at h
      simp only [] at h
      split at h
      next => cases h; exact hj
      next => exact ih (j + 1) p h

theorem hybridStep_matched (wt : List WordTiming) (w : String) (idx : ℕ)
    (le : Option ℚ) (j : ℕ) (t : WordTiming)
    (hs : searchWindow wt (cleanWord w) idx 5 = some (j, t)) :
    hybridStep wt w idx le = (({ t with word := w }, some j), j + 1) := by
  unfold hybridStep
  rw [hs]

theorem hybridStep_first (wt : List WordTiming) (w : String) (idx : ℕ)
    (hs : searchWindow wt (cleanWord w) idx 5 = none) :
    hybridStep wt w idx none = ((firstSynth w, none), idx) := by
  unfold hybridStep
  rw [hs]
  rfl

theorem hybridStep_synth (wt : List WordTiming) (w : String) (idx : ℕ) (e : ℚ)
    (hs : searchWindow wt (cleanWord w) idx 5 = none) :
    hybridStep wt w idx (some e) = ((synthAfter w e, none), idx) := by
  unfold hybridStep
  rw [hs]
  rfl

theorem hybridStep_cursor (wt : List WordTiming) (w : String) (idx : ℕ)
    (le : Option ℚ) :
    ((hybridStep wt w idx le).1.2 = none ∧ (hybridStep wt w idx le).2 = idx) ∨
      (∃ j t, searchWindow wt (cleanWord w) idx 5 = some (j, t) ∧
        (hybridStep wt w idx le).1.2 = some j ∧ (hybridStep wt w idx le).2 = j + 1) := by
  cases hs : searchWindow wt (cleanWord w) idx 5 with
  | none =>
    left
    cases le with
    | none => rw [hybridStep_first wt w idx hs]; exact ⟨rfl, rfl⟩
    | some e => rw [hybridStep_synth wt w idx e hs]; exact ⟨rfl, rfl⟩
  | some q =>
    right
    obtain ⟨j, t⟩ := q
    refine ⟨j, t, rfl, ?_, ?_⟩
    · rw [hybridStep_matched wt w idx le j t hs]
    · rw [hybridStep_matched wt w idx le j t hs]

theorem hybridAux_head (wt : List WordTiming) (ws : List String) (idx : ℕ)
    (le : Option ℚ) :
    ∀ p ∈ (hybridAux wt ws idx le).head?, p.2 = none →
      p.1 = (match le with
             | none => firstSynth p.1.word
             | some e => synthAfter p.1.word e) := by
  cases ws with
  | nil => intro p hp; rw [hybridAux] at hp; simp at hp
  | cons w ws =>
    intro p hp hnone
    rw [hybridAux] at hp
    simp only [List.head?_cons, Option.mem_def, Option.some.injEq] at hp
    subst hp
    cases hs : searchWindow wt (cleanWord w) idx 5 with
    | some q =>
      obtain ⟨j, t⟩ := q
      rw [hybridStep_matched wt w idx le j t hs] at hnone
      cases hnone
    | none =>
      cases le with
      | none => rw [hybridStep_first wt w idx hs]; simp [firstSynth]
      | some e => rw [hybridStep_synth wt w idx e hs]; simp [synthAfter]

theorem hybridAux_chain (wt : List WordTiming) (ws : List String) :
    ∀ (idx : ℕ) (le : Option ℚ),
      List.Chain' (fun p q => q.2 = none → q.1 = synthAfter q.1.word p.1.«end»)
        (hybridAux wt ws idx le) := by
  induction ws with
  | nil => intro idx le; rw [hybridAux]; exact List.chain'_nil
  | cons w ws ih =>
    intro idx le
    rw [hybridAux]
    refine List.chain'_cons'.mpr ⟨?_, ih _ _⟩
    intro q hq hqn
    exact hybridAux_head wt ws _ _ q hq hqn

theorem hybridAux_matched_indices (wt : List WordTiming) (ws : List String) :
    ∀ (idx : ℕ) (le : Option ℚ),
      (∀ j ∈ (hybridAux wt ws idx le).filterMap Prod.snd, idx ≤ j) ∧
        ((hybridAux wt ws idx le).filterMap Prod.snd).Pairwise (· < ·) := by
  induction ws with
  | nil => intro idx le; rw [hybridAux]; exact ⟨by simp, by simp⟩
  | cons w ws ih =>
    intro idx le
    rw [hybridAux]
    rcases hybridStep_cursor wt w idx le with ⟨h1, h2⟩ | ⟨j, t, hs, h1, h2⟩
    · rw [List.filterMap_cons_none h1, h2]
      exact ih idx _
    · rw [List.filterMap_cons_some h1, h2]
      obtain ⟨hb, hp⟩ := ih (j + 1) _
      have hij : idx ≤ j := searchWindow_ge wt _ 5 idx (j, t) hs
      constructor
      · intro k hk
        rcases List.mem_cons.mp hk with rfl | hk
        · exact hij
        · exact le_trans (le_trans hij (Nat.le_succ j)) (hb k hk)
      · exact List.pairwise_cons.mpr
          ⟨fun k hk => lt_of_lt_of_le (Nat.lt_succ_self j) (hb k hk), hp⟩

theorem hybridAux_durC (wt : List WordTiming)
    (hwt : ∀ t ∈ wt, t.duration = t.«end» - t.start) (ws : List String) :
    ∀ (idx : ℕ) (le : Option ℚ) (p), p ∈ hybridAux wt ws idx le →
      p.1.duration = p.1.«end» - p.1.start := by
  induction ws with
  | nil => intro idx le p hp; rw [hybridAux] at hp; simp at hp
  | cons w ws ih =>
    intro idx le p hp
    rw [hybridAux] at hp
    rcases List.mem_cons.mp hp with rfl | hp
    · cases hs : searchWindow wt (cleanWord w) idx 5 with
      | some q =>
        obtain ⟨j, t⟩ := q
        rw [hybridStep_matched wt w idx le j t hs]
        have ht : t ∈ wt := List.getElem?_mem (searchWindow_getElem wt _ 5 idx (j, t) hs)
        simpa using hwt t ht
      | none =>
        cases le with
        | none => rw [hybridStep_first wt w idx hs]; simp [firstSynth]
        | some e => rw [hybridStep_synth wt w idx e hs]; simp [synthAfter]
    · exact ih _ _ p hp

theorem estimateLoop_durC (n : ℕ) (totalEst audio : ℚ) (ws : List String) :
    ∀ (i : ℕ) (ct : ℚ) (t), t ∈ estimateLoop n totalEst audio ws i ct →
      t.duration = t.«end» - t.start := by
  induction ws with
  | nil => intro i ct t ht; rw [estimateLoop] at ht; simp at ht
  | cons w ws ih =>
    intro i ct t ht
    rw [estimateLoop] at ht
    rcases List.mem_cons.mp ht with rfl | ht
    · simp
    · exact ih _ _ t ht

theorem estimateLoop_chain (n : ℕ) (totalEst audio : ℚ) (ws : List String) :
    ∀ (i : ℕ) (ct : ℚ), i + ws.length = n →
      List.Chain' (fun a b =>
          b.start = a.start + a.duration + pauseAfterWord a.word ∧
            a.«end» = a.start + a.duration ∧ (0 ≤ audio → 0 ≤ a.duration))
        (estimateLoop n totalEst audio ws i ct) := by
  induction ws with
  | nil => intro i ct _; rw [estimateLoop]; exact List.chain'_nil
  | cons w ws ih =>
    intro i ct hn
    rw [estimateLoop]
    refine List.chain'_cons'.mpr ⟨?_, ?_⟩
    · intro y hy
      cases ws with
      | nil => rw [estimateLoop] at hy; simp at hy
      | cons w' ws' =>
        rw [estimateLoop] at hy
        simp only [List.head?_cons, Option.mem_def, Option.some.injEq] at hy
        subst hy
        have hne : (i == n - 1) = false := by
          simp only [List.length_cons] at hn
          simp only [beq_eq_false_iff_ne, ne_eq]
          omega
        refine ⟨?_, rfl, ?_⟩
        · simp only [hne, Bool.false_eq_true, if_false, pauseAfterWord]
        · intro ha
          simp only []
          split
          next hpos =>
            have h1 : (0 : ℚ) ≤ estimate_word_duration w / totalEst :=
              div_nonneg (estimate_word_duration_nonneg w) (le_of_lt hpos)
            have h2 : (0 : ℚ) ≤ estimate_word_duration w / totalEst * audio :=
              mul_nonneg h1 ha
            have h3 : (0 : ℚ) ≤ (0.9 : ℚ) := by norm_num
            exact mul_nonneg h2 h3
          next => norm_num
    · refine ih (i + 1) _ ?_
      simp only [List.length_cons] at hn ⊢
      omega

theorem estimateLoop_map_start_head (n : ℕ) (totalEst audio : ℚ) (ws : List String)
    (i : ℕ) (ct : ℚ) :
    ((estimateLoop n totalEst audio ws i ct).map WordTiming.start).head? =
      ws.head?.map (fun _ => ct) := by
  cases ws with
  | nil => rw [estimateLoop]; rfl
  | cons w ws => rw [estimateLoop]; rfl

theorem leadsWith_iff (s : List Char) :
    ∀ t : List Char, leadsWith s t = true ↔ ∃ v, s ++ v = t := by
  induction s with
  | nil => intro t; simp [leadsWith]
  | cons a as ih =>
    intro t
    cases t with
    | nil => simp [leadsWith]
    | cons b bs =>
      rw [leadsWith]
      simp only [Bool.and_eq_true, beq_iff_eq, ih bs]
      constructor
      · rintro ⟨rfl, v, rfl⟩
        exact ⟨v, rfl⟩
      · rintro ⟨v, hv⟩
        injection hv with h1 h2
        exact ⟨h1, v, h2⟩

theorem occursIn_iff (s t : List Char) : occursIn s t = true ↔ OccursIn s t := by
  induction t with
  | nil =>
    rw [occursIn]
    simp only [leadsWith_iff, OccursIn]
    constructor
    · rintro ⟨v, hv⟩
      exact ⟨[], v, hv⟩
    · rintro ⟨u, v, huv⟩
      rcases List.append_eq_nil.mp huv with ⟨h1, h2⟩
      rcases List.append_eq_nil.mp h1 with ⟨rfl, rfl⟩
      exact ⟨[], rfl⟩
  | cons c cs ih =>
    rw [occursIn]
    simp only [Bool.or_eq_true, leadsWith_iff, ih, OccursIn]
    constructor
    · rintro (⟨v, hv⟩ | ⟨u, v, huv⟩)
      · exact ⟨[], v, hv⟩
      · exact ⟨c :: u, v, by rw [← huv]; rfl⟩
    · rintro ⟨u, v, huv⟩
      cases u with
      | nil => exact Or.inl ⟨v, by simpa using huv⟩
      | cons x xs =>
        right
        injection huv with h1 h2
        exact ⟨xs, v, h2⟩

/-! ## The claims -/

/-- C1, counterexample: the claim asserts the entry point's output length
equals the authoritative word count in every tier, but the direct ASR tier
returns the ASR list unchanged: with 10 authoritative words and 7 ASR
entries (ratio 0.7, so the quality gate passes), the output has length 7,
not 10. -/
theorem totality_direct_tier_cex :
    (analyze_speech_timing true (some (List.replicate 7 ⟨"w", 0, 1, 1, 1⟩))
        "w w w w w w w w w w" 10).length = 7 ∧
      (pySplit "w w w w w w w w w w").length = 10 := by
  constructor
  · norm_num [analyze_speech_timing, get_whisper_word_timings,
      show pySplit "w w w w w w w w w w" = List.replicate 10 "w" from by decide,
      show (List.replicate 7 (⟨"w", 0, 1, 1, 1⟩ : WordTiming)).isEmpty = false from by
        decide]
  · decide

/-- C1, amended: the hybrid aligner and the pure estimation fallback each
return exactly one timing per authoritative word, and the entry point does
so whenever ASR is unavailable; only the direct ASR tier returns the ASR
list's own length. -/
theorem totality_amended (wt : List WordTiming) (ws : List String) (total : ℚ)
    (text : String) (d : ℚ) (avail : Bool) :
    (create_hybrid_timings wt ws total).length = ws.length ∧
      (estimate_word_timings text d).length = (pySplit text).length ∧
      (analyze_speech_timing avail none text d).length = (pySplit text).length := by
  have hh : (create_hybrid_timings wt ws total).length = ws.length := by
    rw [create_hybrid_timings, capLast_length, List.length_map, hybridTrace,
      hybridAux_length]
  have he : (estimate_word_timings text d).length = (pySplit text).length := by
    simp only [estimate_word_timings]
    rw [capLast_length, estimateLoop_length]
  have hna : analyze_speech_timing avail none text d = estimate_word_timings text d := by
    cases avail <;> rfl
  exact ⟨hh, he, by rw [hna]; exact he⟩

/-- C2, counterexample: the hybrid aligner's output need not be ordered by
`start`: a synthesized first word is placed at 0.1, and the following
ASR-matched word keeps its ASR start 0.0, which is smaller. -/
theorem ordering_hybrid_cex :
    ¬ List.Chain' (fun a b => a.start ≤ b.start)
        (create_hybrid_timings [⟨"hello", 0, 2/5, 2/5, 1⟩] ["xyzzy", "hello"] 10) := by
  norm_num [create_hybrid_timings, hybridTrace, hybridAux, hybridStep, searchWindow,
    capLast, List.chain'_cons, List.chain'_singleton, estimate_word_duration,
    show wordsMatch (cleanWord "hello") (cleanWord "xyzzy") = false from by decide,
    show wordsMatch (cleanWord "hello") (cleanWord "hello") = true from by decide,
    show vowelCount "xyzzy" = 0 from by decide,
    show String.length "xyzzy" = 5 from by decide]

/-- C2, amended: ordering and non-overlap hold for the pure estimation
fallback (for a non-negative audio duration): consecutive entries satisfy
`end[i] <= start[i+1]` and `start[i] <= start[i+1]`.  The hybrid aligner's
output does not satisfy the ordering claim in general. -/
theorem ordering_estimation (text : String) (d : ℚ) (hd : 0 ≤ d) :
    List.Chain' (fun a b => a.«end» ≤ b.start ∧ a.start ≤ b.start)
      (estimate_word_timings text d) := by
  simp only [estimate_word_timings]
  apply chain'_capLast
  · intro t u q h
    exact h
  · have hch := estimateLoop_chain (pySplit text).length
      ((pySplit text).map estimate_word_duration).sum d (pySplit text) 0 0.1
      (Nat.zero_add _)
    refine List.Chain'.imp ?_ hch
    rintro a b ⟨h1, h2, h3⟩
    have hp := pauseAfterWord_pos a.word
    have hd' := h3 hd
    exact ⟨by rw [h1, h2]; linarith, by rw [h1]; linarith⟩

/-- C2, witness for the amended ordering theorem at a concrete input. -/
theorem ordering_estimation_witness :
    (0 : ℚ) ≤ 1 ∧
      List.Chain' (fun a b => a.«end» ≤ b.start ∧ a.start ≤ b.start)
        (estimate_word_timings "one two. three" 1) :=
  ⟨by norm_num, ordering_estimation "one two. three" 1 (by norm_num)⟩

/-- C3, counterexample: the hybrid aligner clamps only when the last end
exceeds `totalDuration + 0.1`, so the last end can exceed the audio
duration: one synthesized word "a" ends at 0.42 with audio duration 0.4,
and no clamping happens. -/
theorem bounds_hybrid_cex :
    ((create_hybrid_timings [] ["a"] (2/5)).map WordTiming.«end» = [21/50]) ∧
      ((2 : ℚ)/5 < 21/50) := by
  constructor
  · norm_num [create_hybrid_timings, hybridTrace, hybridAux, hybridStep, searchWindow,
      capLast, firstSynth, estimate_word_duration,
      show vowelCount "a" = 1 from by decide,
      show String.length "a" = 1 from by decide]
  · norm_num

/-- C3, amended: after clamping, the hybrid aligner's last end is at most
`totalDuration + 0.1` (it is reset to `totalDuration` only when it exceeds
that buffer), while the pure estimation fallback's last end is at most the
audio duration. -/
theorem bounds_amended (wt : List WordTiming) (ws : List String) (total : ℚ)
    (text : String) (d : ℚ) :
    (∀ t ∈ (create_hybrid_timings wt ws total).getLast?, t.«end» ≤ total + 0.1) ∧
      (∀ t ∈ (estimate_word_timings text d).getLast?, t.«end» ≤ d) := by
  constructor
  · rw [create_hybrid_timings]
    exact capLast_last_le _ _ _ (by linarith [show (0:ℚ) < 0.1 by norm_num])
  · simp only [estimate_word_timings]
    exact capLast_last_le _ _ _ le_rfl

/-- C4, counterexample: the final clamp rewrites only `end`, leaving
`duration` stale: for text "a" with audio duration 0.5 the single word is
clamped to end 0.5 but keeps duration 0.45 ≠ 0.5 - 0.1. -/
theorem duration_consistency_cex :
    ¬ (∀ t ∈ estimate_word_timings "a" (1/2), t.duration = t.«end» - t.start) := by
  norm_num [estimate_word_timings, estimateLoop, capLast, estimate_word_duration,
    show pySplit "a" = ["a"] from by decide,
    show vowelCount "a" = 1 from by decide,
    show String.length "a" = 1 from by decide]

/-- C4, amended: `duration = end - start` holds for every emitted entry
except possibly the last one (whose `end`, but not `duration`, may be
rewritten by the final clamp), in both the hybrid aligner (provided the
input ASR entries satisfy it, as the adapter guarantees) and the pure
estimation fallback. -/
theorem duration_consistency_amended (wt : List WordTiming) (ws : List String)
    (total : ℚ) (text : String) (d : ℚ)
    (hwt : ∀ t ∈ wt, t.duration = t.«end» - t.start) :
    (∀ t ∈ (create_hybrid_timings wt ws total).dropLast,
        t.duration = t.«end» - t.start) ∧
      (∀ t ∈ (estimate_word_timings text d).dropLast,
        t.duration = t.«end» - t.start) := by
  constructor
  · intro t ht
    rw [create_hybrid_timings, capLast_dropLast] at ht
    have ht2 := List.dropLast_subset _ ht
    rcases List.mem_map.mp ht2 with ⟨p, hp, rfl⟩
    exact hybridAux_durC wt hwt ws 0 none p hp
  · intro t ht
    simp only [estimate_word_timings] at ht
    rw [capLast_dropLast] at ht
    exact estimateLoop_durC _ _ _ _ _ _ t (List.dropLast_subset _ ht)

/-- C4, witness for the amended duration-consistency theorem at a concrete
input. -/
theorem duration_consistency_witness :
    (∀ t ∈ ([⟨"hello", 0, 2/5, 2/5, 1⟩] : List WordTiming),
        t.duration = t.«end» - t.start) ∧
      ((∀ t ∈ (create_hybrid_timings [⟨"hello", 0, 2/5, 2/5, 1⟩] ["hello"] 1).dropLast,
          t.duration = t.«end» - t.start) ∧
        (∀ t ∈ (estimate_word_timings "a b" 1).dropLast,
          t.duration = t.«end» - t.start)) :=
  ⟨by norm_num,
    duration_consistency_amended [⟨"hello", 0, 2/5, 2/5, 1⟩] ["hello"] 1 "a b" 1
      (by norm_num)⟩

/-- C5, counterexample: the synthesized pause is chosen by the punctuation
of the word being synthesized, not of the previous authoritative word:
after "hi" (no terminal punctuation, ending at 0.44), "bye." is placed at
0.44 + 0.15 = 0.59, whereas the claim predicts 0.44 + 0.05 = 0.49. -/
theorem synth_pause_cex :
    ((create_hybrid_timings [] ["hi", "bye."] 100).map WordTiming.start =
        [1/10, 59/100]) ∧
      endsWithAny terminalPunct "hi" = false ∧
      (59 : ℚ)/100 ≠ 1/10 + estimate_word_duration "hi" + 1/20 := by
  refine ⟨?_, by decide, ?_⟩
  · norm_num [create_hybrid_timings, hybridTrace, hybridAux, hybridStep, searchWindow,
      capLast, firstSynth, synthAfter, estimate_word_duration,
      show vowelCount "hi" = 1 from by decide,
      show vowelCount "bye." = 1 from by decide,
      show String.length "hi" = 2 from by decide,
      show String.length "bye." = 4 from by decide,
      show endsWithAny terminalPunct "bye." = true from by decide]
  · norm_num [estimate_word_duration,
      show vowelCount "hi" = 1 from by decide,
      show String.length "hi" = 2 from by decide]

/-- C5, amended: whenever the hybrid aligner synthesizes (before the final
clamp), the entry has confidence 0.4, duration `estimate_word_duration` of
its word, `end = start + duration`, and `start` = previously emitted end
plus 0.15 if the word *being synthesized* ends in `.`, `!` or `?`, else
0.05 (the very first emitted word starts at 0.1). -/
theorem hybrid_synthesized_placement (wt : List WordTiming) (words : List String) :
    (∀ p ∈ (hybridTrace wt words).head?, p.2 = none → p.1 = firstSynth p.1.word) ∧
      List.Chain' (fun p q => q.2 = none → q.1 = synthAfter q.1.word p.1.«end»)
        (hybridTrace wt words) := by
  constructor
  · intro p hp hn
    exact hybridAux_head wt words 0 none p hp hn
  · exact hybridAux_chain wt words 0 none

/-- C6, counterexample: the pure estimation pause after a word with
terminal punctuation is 0.4, not the 0.15 of the hybrid aligner's rule:
for "a. b" the second start equals the first end plus 0.4 and differs from
the first end plus 0.15. -/
theorem estimation_pause_cex :
    ((estimate_word_timings "a. b" 1).map WordTiming.start)[1]? =
        ((estimate_word_timings "a. b" 1).map (fun t => t.«end» + 2/5))[0]? ∧
      ((estimate_word_timings "a. b" 1).map WordTiming.start)[1]? ≠
        ((estimate_word_timings "a. b" 1).map (fun t => t.«end» + 3/20))[0]? := by
  have hrun :
      estimate_word_timings "a. b" 1 =
        [⟨"a.", 1/10, 31/55, 51/110, 3/10⟩, ⟨"b", 53/55, 1, 24/55, 3/10⟩] := by
    norm_num [estimate_word_timings, estimateLoop, capLast, estimate_word_duration,
      pauseAfterWord,
      show pySplit "a. b" = ["a.", "b"] from by decide,
      show vowelCount "a." = 1 from by decide,
      show vowelCount "b" = 0 from by decide,
      show String.length "a." = 2 from by decide,
      show String.length "b" = 1 from by decide,
      show endsWithAny clausePunct "a." = false from by decide,
      show endsWithAny terminalPunct "a." = true from by decide]
  rw [hrun]
  constructor
  · norm_num
  · norm_num

/-- C6, amended: the estimation clock starts at 0.1 and advances after
each non-final word by that word's scaled duration plus a pause of 0.2
after `,`/`;`, 0.4 after `.`/`!`/`?`, and 0.05 otherwise (the final word's
fixed 0.1 pause never affects any emitted timing). -/
theorem estimation_pauses_amended (text : String) (d : ℚ) :
    ((estimate_word_timings text d).map WordTiming.start).head? =
        (pySplit text).head?.map (fun _ => (0.1 : ℚ)) ∧
      List.Chain' (fun a b => b.start = a.start + a.duration + pauseAfterWord a.word)
        (estimate_word_timings text d) := by
  constructor
  · simp only [estimate_word_timings]
    rw [capLast_map_start, estimateLoop_map_start_head]
  · simp only [estimate_word_timings]
    apply chain'_capLast
    · intro t u q h
      exact h
    · have hch := estimateLoop_chain (pySplit text).length
        ((pySplit text).map estimate_word_duration).sum d (pySplit text) 0 0.1
        (Nat.zero_add _)
      exact List.Chain'.imp (fun a b h => h.1) hch

/-- C7: the hybrid aligner's match test agrees exactly with the spec's
fuzzy-match rule (cleaned equality, or substring occurrence with the
contained string longer than 2 characters), and authoritative
"extraordinarily" against ASR word "extra" is matched (keeping the ASR
start/end and the authoritative text), not synthesized. -/
theorem fuzzy_match_rule (asrWord authWord : String) :
    (wordsMatch (cleanWord asrWord) (cleanWord authWord) = true ↔
        specMatch asrWord authWord) ∧
      create_hybrid_timings [⟨"extra", 1, 3/2, 1/2, 9/10⟩] ["extraordinarily"] 10 =
        [⟨"extraordinarily", 1, 3/2, 1/2, 9/10⟩] := by
  constructor
  · rw [wordsMatch]
    simp only [Bool.or_eq_true, Bool.and_eq_true, decide_eq_true_eq, beq_iff_eq,
      occursIn_iff, specMatch]
    tauto
  · norm_num [create_hybrid_timings, hybridTrace, hybridAux, hybridStep, searchWindow,
      capLast,
      show wordsMatch (cleanWord "extra") (cleanWord "extraordinarily") = true from by
        decide]

/-- C8: `estimate_word_duration` is monotone in word length for a fixed
vowel count: with equal vowel counts, a word at least as long never gets a
smaller estimate. -/
theorem estimate_word_duration_monotone (w1 w2 : String)
    (hv : vowelCount w1 = vowelCount w2) (hl : w1.length ≤ w2.length) :
    estimate_word_duration w1 ≤ estimate_word_duration w2 := by
  have hc : (w1.length : ℚ) ≤ (w2.length : ℚ) := by exact_mod_cast hl
  have h2 : (w1.length : ℚ) * 0.02 ≤ (w2.length : ℚ) * 0.02 :=
    mul_le_mul_of_nonneg_right hc (by norm_num)
  simp only [estimate_word_duration, hv]
  linarith

/-- C8, witness for the monotonicity theorem at a concrete input. -/
theorem estimate_word_duration_monotone_witness :
    vowelCount "ab" = vowelCount "abc" ∧ "ab".length ≤ "abc".length ∧
      estimate_word_duration "ab" ≤ estimate_word_duration "abc" :=
  ⟨by decide, by decide,
    estimate_word_duration_monotone "ab" "abc" (by decide) (by decide)⟩

/-- C9, counterexample: with empty authoritative text but a non-empty ASR
result, the quality gate compares against 0 words, passes, and the entry
point returns the ASR entries — a non-empty output for empty text. -/
theorem empty_text_cex :
    analyze_speech_timing true (some [⟨"uh", 0, 1/5, 1/5, 1⟩]) "" 1 =
        [⟨"uh", 0, 1/5, 1/5, 1⟩] ∧
      ([⟨"uh", 0, 1/5, 1/5, 1⟩] : List WordTiming) ≠ [] := by
  constructor
  · norm_num [analyze_speech_timing, get_whisper_word_timings,
      show pySplit "" = [] from by decide]
  · simp

/-- C9, amended: for empty authoritative text the pure estimation fallback
and the hybrid aligner emit nothing, and the entry point returns an empty
sequence whenever ASR is unavailable or itself empty; only a non-empty
direct ASR result makes the output non-empty. -/
theorem empty_text_amended (avail : Bool) (wt : List WordTiming) (total d : ℚ) :
    estimate_word_timings "" d = [] ∧
      create_hybrid_timings wt [] total = [] ∧
      analyze_speech_timing avail none "" d = [] ∧
      analyze_speech_timing avail (some []) "" d = [] := by
  have hest : estimate_word_timings "" d = [] := rfl
  refine ⟨hest, rfl, ?_, ?_⟩
  · cases avail <;> · rw [analyze_speech_timing]; exact hest
  · cases avail
    · rw [analyze_speech_timing]; exact hest
    · rw [analyze_speech_timing]
      norm_num [get_whisper_word_timings, show pySplit "" = [] from by decide, hest]

/-- C10: during a hybrid pass the ASR cursor never decreases, so the
matched ASR indices recorded in the trace are strictly increasing: each
ASR entry is consumed by at most one emitted timing, in order. -/
theorem hybrid_cursor_monotone (wt : List WordTiming) (words : List String) :
    ((hybridTrace wt words).filterMap Prod.snd).Pairwise (· < ·) :=
  (hybridAux_matched_indices wt words 0 none).2

end RedditVideo
